import Mathlib

/-!
# Verification of the `dream` drug-combination search engine

Shallow embedding of the core of the `dream` Python package
(`dream/parmap.py`, `dream/genetic_algorithm/fitness.py`,
`dream/genetic_algorithm/coverage_sum.py`, `dream/genetic_algorithm/ga.py`)
together with proofs and refutations of the specified properties.

Conventions of the embedding:
* drug names and gene names are modelled as natural numbers;
* Python floats that carry exact values are modelled as rationals `ℚ`
  (all the arithmetic performed by the scoring pipeline on its inputs is
  field arithmetic, so exact rationals are faithful up to rounding);
* an IEEE non-finite float (`nan` or `±inf`) arising from a degenerate
  operation (median of an empty frame, division by zero) is modelled by
  `Option.none`: the pipeline has no exception channel, a degenerate value
  propagates as data;
* `scipy.stats.norm.cdf` and `numpy`'s standard deviation denote the exact
  real-valued functions they approximate, so the final z-score/p-value pair
  lives in `ℝ`;
* the randomized permutation draws of the coverage test are injected as an
  explicit argument (the list of the 100 random target sets), making every
  embedded function deterministic.
-/

namespace Dream

/-! ## `dream/parmap.py`

`parmap(func, iterable, max_workers)` fans the inputs out to a process
pool via `concurrent.futures.ProcessPoolExecutor.map` and appends the
results in the order the executor yields them.  The executor computes
`func` on the inputs in an arbitrary completion order but yields results
in input order; we model the completion order as an explicit list of
input indices and the fan-in as an index-directed reassembly. -/

/-- Worker-side computation: the pool evaluates `f` on the inputs in the
completion order `order` (a list of input indices), producing tagged
results `(index, f input)`.  An index outside the input list produces
nothing (this never happens for a genuine completion order). -/
def completionResults {α β : Type} (f : α → β) (xs : List α) (order : List ℕ) :
    List (ℕ × β) :=
  order.filterMap fun i => (xs.get? i).map fun a => (i, f a)

/-- Fan-in of `ProcessPoolExecutor.map`: results are yielded (and appended
by `parmap`) in input order, each looked up by its input index among the
tagged worker results. -/
def parmap {α β : Type} (f : α → β) (xs : List α) (order : List ℕ) : List β :=
  (List.range xs.length).filterMap fun i => (completionResults f xs order).lookup i

theorem lookup_completionResults {α β : Type} (f : α → β) (xs : List α) :
    ∀ (order : List ℕ), (∀ j ∈ order, j < xs.length) →
      ∀ i : ℕ, i ∈ order →
        (completionResults f xs order).lookup i = (xs.get? i).map f := by
  intro order
  induction order with
  | nil => intro _ i hi; cases hi
  | cons j rest ih =>
      intro hbound i hi
      have hj : j < xs.length := hbound j (List.mem_cons_self _ _)
      have hsome : xs[j]? = some xs[j] := List.getElem?_eq_getElem hj
      by_cases hji : j = i
      · subst hji
        simp [completionResults, List.filterMap_cons, List.get?_eq_getElem?, hsome,
          List.lookup]
      · have hmem : i ∈ rest := by
          rcases List.mem_cons.mp hi with h | h
          · exact absurd h.symm hji
          · exact h
        have hrest : ∀ j' ∈ rest, j' < xs.length := fun j' hj' =>
          hbound j' (List.mem_cons_of_mem _ hj')
        have hne : (i == j) = false := beq_false_of_ne (Ne.symm hji)
        simp only [completionResults, List.filterMap_cons, List.get?_eq_getElem?, hsome,
          Option.map_some', List.lookup, hne]
        simpa [completionResults, List.get?_eq_getElem?] using ih hrest i hmem

theorem filterMap_range_get {α β : Type} (f : α → β) :
    ∀ xs : List α,
      ((List.range xs.length).filterMap fun i => (xs.get? i).map f) = xs.map f := by
  intro xs
  induction xs with
  | nil => simp
  | cons a t ih =>
      have : List.range (t.length + 1) = 0 :: (List.range t.length).map Nat.succ :=
        List.range_succ_eq_map t.length
      simp only [List.length_cons, this, List.filterMap_cons, List.get?_cons_zero,
        Option.map_some', List.filterMap_map]
      have hcomp : ((fun i => Option.map f ((a :: t).get? i)) ∘ Nat.succ) =
          fun i => Option.map f (t.get? i) := by
        funext i
        simp [Function.comp, List.get?_cons_succ]
      rw [hcomp]
      simpa using congrArg (List.cons (f a)) ih

/-- C8: for every pure function `f`, every input list and every completion
order of the worker pool (any permutation of the input indices), `parmap`
returns exactly the sequential map of `f` over the inputs, index by
index. -/
theorem parmap_order_preserving {α β : Type} (f : α → β) (xs : List α)
    (order : List ℕ) (hperm : order.Perm (List.range xs.length)) :
    parmap f xs order = xs.map f := by
  have hbound : ∀ j ∈ order, j < xs.length := fun j hj =>
    List.mem_range.mp (hperm.mem_iff.mp hj)
  have hmem : ∀ i ∈ List.range xs.length, i ∈ order := fun i hi =>
    hperm.mem_iff.mpr hi
  unfold parmap
  rw [List.filterMap_congr fun i hi =>
    lookup_completionResults f xs order hbound i (hmem i hi)]
  exact filterMap_range_get f xs

/-- Witness for C8 at a concrete input and a concrete out-of-order
completion schedule. -/
theorem parmap_order_preserving_witness :
    ([2, 0, 1] : List ℕ).Perm (List.range 3) ∧
      parmap Nat.succ [10, 20, 30] [2, 0, 1] = [10, 20, 30].map Nat.succ :=
  ⟨by decide, parmap_order_preserving Nat.succ [10, 20, 30] [2, 0, 1] (by decide)⟩

/-! ## `dream/genetic_algorithm/coverage_sum.py`

The PPI network is handed to `coverage_sum` as an edge list and turned
into an `igraph` graph (`ig.Graph.TupleList`); nodes are gene names.  The
randomized permutation draws (`generate_random_targets`, 100 of them) are
injected as an explicit argument `draws`. -/

/-- A protein-protein interaction network, as the edge list from which
`ig.Graph.TupleList` builds the graph. -/
structure PPIGraph where
  edges : List (ℕ × ℕ)
deriving DecidableEq

/-- Left-to-right deduplication keeping first occurrences, the effect of
Python's `set(...)` materialized as a list (the resulting order is
irrelevant to every score computed from it). -/
def firstDedup (l : List ℕ) : List ℕ :=
  l.foldl (fun acc a => if a ∈ acc then acc else acc ++ [a]) []

/-- The vertex list of the graph: every endpoint occurring in the edge
list, deduplicated. -/
def PPIGraph.nodes (G : PPIGraph) : List ℕ :=
  firstDedup (G.edges.flatMap fun e => [e.1, e.2])

/-- Adjacent vertices of `t` in the graph. -/
def PPIGraph.neighbors (G : PPIGraph) (t : ℕ) : List ℕ :=
  G.nodes.filter fun n =>
    G.edges.any fun e => (e.1 = t && e.2 = n) || (e.2 = t && e.1 = n)

/-- `igraph`'s order-1 neighborhood of `t`: the vertex itself plus its
neighbors. -/
def PPIGraph.closedNeighborhood (G : PPIGraph) (t : ℕ) : List ℕ :=
  t :: G.neighbors t

/-- Insert into a sorted list, keeping it sorted. -/
def insertSorted (a : ℚ) : List ℚ → List ℚ
  | [] => [a]
  | b :: l => if a ≤ b then a :: b :: l else b :: insertSorted a l

/-- Sort a list of rationals ascendingly (insertion sort). -/
def sortRats (l : List ℚ) : List ℚ := l.foldr insertSorted []

/-- `pandas` median of a column: sort, take the middle element (odd
length) or the average of the two middle elements (even length); the
median of an empty frame is the non-finite float `NaN`, modelled as
`none`. -/
def pandasMedian (xs : List ℚ) : Option ℚ :=
  if xs.length = 0 then none
  else
    let s := sortRats xs
    if xs.length % 2 = 1 then some (s.getD (xs.length / 2) 0)
    else some ((s.getD (xs.length / 2 - 1) 0 + s.getD (xs.length / 2) 0) / 2)

/-- `compute_cov_score(targets, ppi_network, graph_rank, order=1)`
(coverage_sum.py lines 118-155): union the closed neighborhoods of all
targets (each listed as `[t] +` the igraph neighborhood of `t`,
de-duplicated), take the median graph rank of the covered nodes, and
return `(|covered| / |V|) / median`.  An empty covered set makes the
median `NaN`, and a zero median makes the float division non-finite; both
degenerate outcomes are modelled as `none`. -/
def compute_cov_score (targets : List ℕ) (ppi_network : PPIGraph)
    (graph_rank : ℕ → ℚ) : Option ℚ :=
  let covered_nodes_overall :=
    firstDedup (targets.flatMap fun t => t :: ppi_network.closedNeighborhood t)
  match pandasMedian (covered_nodes_overall.map graph_rank) with
  | none => none
  | some inform_rank =>
      if inform_rank = 0 then none
      else
        let coverage_overall : ℚ :=
          (covered_nodes_overall.length : ℚ) / (ppi_network.nodes.length : ℚ)
        some (coverage_overall / inform_rank)

/-- `np.mean` of a list of floats. -/
def npMean (xs : List ℚ) : ℚ := xs.sum / (xs.length : ℚ)

/-- The square of `np.std` (population variance, `ddof = 0`); `np.std`
itself is its real square root. -/
def npVar (xs : List ℚ) : ℚ :=
  (xs.map fun x => (x - npMean xs) ^ 2).sum / (xs.length : ℚ)

/-- Sequence a list of possibly non-finite floats: `numpy` statistics of
a list containing a `nan` are `nan`, so the mean/std step only produces a
finite value when every entry is finite. -/
def allFinite : List (Option ℚ) → Option (List ℚ)
  | [] => some []
  | none :: _ => none
  | some x :: rest => (allFinite rest).map (x :: ·)

/-- The standard normal cumulative distribution function,
`scipy.stats.norm.cdf`. -/
noncomputable def normCdf (x : ℝ) : ℝ :=
  ∫ t in Set.Iic x, ProbabilityTheory.gaussianPDFReal 0 1 t

/-- The final step of `get_drug_input_coverage` (coverage_sum.py lines
115-116): `z = (observed - mean(simulated)) / std(simulated)` and
`p = norm.cdf(-abs(z))`.  A non-finite observed or simulated score
(`none`) propagates through `numpy`'s mean/std to a non-finite pair.
When `std(simulated) = 0`, the float division yields `nan`
(if `observed = mean(simulated)`, so `0.0/0.0`) or `±inf`; `norm.cdf` of
a `nan` is `nan` and of `-inf` is exactly `0.0`.  No error is raised in
either case. -/
noncomputable def zAndP (observed : Option ℚ) (simulated : List (Option ℚ)) :
    Option ℝ × Option ℝ :=
  match observed with
  | none => (none, none)
  | some o =>
      match allFinite simulated with
      | none => (none, none)
      | some sims =>
          if npVar sims = 0 then
            if o = npMean sims then (none, none) else (none, some 0)
          else
            let z : ℝ := ((o - npMean sims : ℚ) : ℝ) / Real.sqrt ((npVar sims : ℚ) : ℝ)
            (some z, some (normCdf (-|z|)))

/-- `get_drug_input_coverage` (coverage_sum.py lines 57-116): resolve the
targets of the candidate drugs via the drug-target table, keep those
present in the network, score the observed target set, score the 100
injected degree-matched random target sets, and standardize. -/
noncomputable def get_drug_input_coverage (candidate_drugs : List ℕ)
    (drug_target_df : List (ℕ × ℕ)) (ppi_network : PPIGraph)
    (graph_rank : ℕ → ℚ) (draws : List (List ℕ)) : Option ℝ × Option ℝ :=
  let targets := ppi_network.nodes.filter fun n =>
    (drug_target_df.filter fun p => candidate_drugs.contains p.1).any fun p => p.2 = n
  let observed := compute_cov_score targets ppi_network graph_rank
  let simulated := draws.map fun ts => compute_cov_score ts ppi_network graph_rank
  zAndP observed simulated

/-- `coverage_sum` (coverage_sum.py lines 7-55) restricts the drug-target
table to the candidate drugs, builds the igraph network and its
degree-quantile bins (which only parameterize the random draws, injected
here as `draws`), and delegates to `get_drug_input_coverage`. -/
noncomputable def coverage_sum (candidate_drugs : List ℕ)
    (drug_targets : List (ℕ × ℕ)) (ppi_network : PPIGraph)
    (graph_rank : ℕ → ℚ) (draws : List (List ℕ)) : Option ℝ × Option ℝ :=
  get_drug_input_coverage candidate_drugs
    (drug_targets.filter fun p => candidate_drugs.contains p.1)
    ppi_network graph_rank draws

/-- C4: at a candidate drug set whose resolved targets are disjoint from
the network (drug `0` targets gene `100`, absent from the two-node
network `1 — 2`), the scorer returns the non-finite pair `(nan, nan)`
(modelled `(none, none)`): no `DegenerateInputError` (nor any other
exception) is raised, the degenerate value flows out as data.  The 100
permutation draws are the ones `generate_random_targets` produces for an
empty target set, namely 100 empty sets. -/
theorem coverage_disjoint_targets_returns_nan :
    get_drug_input_coverage [0] [(0, 100)] ⟨[(1, 2)]⟩ (fun _ => 1)
      (List.replicate 100 []) = (none, none) := by
  rfl

theorem allFinite_replicate (n : ℕ) (a : ℚ) :
    allFinite (List.replicate n (some a)) = some (List.replicate n a) := by
  induction n with
  | zero => rfl
  | succ k ih => simp [List.replicate_succ, allFinite, ih]

theorem npMean_replicate (n : ℕ) (a : ℚ) (h : n ≠ 0) :
    npMean (List.replicate n a) = a := by
  have hn : (n : ℚ) ≠ 0 := Nat.cast_ne_zero.mpr h
  simp [npMean, List.sum_replicate, nsmul_eq_mul]
  field_simp

theorem npVar_replicate (n : ℕ) (a : ℚ) (h : n ≠ 0) :
    npVar (List.replicate n a) = 0 := by
  simp [npVar, List.map_replicate, npMean_replicate n a h, List.sum_replicate]

/-- C5: at an input where all 100 simulated coverage scores coincide
(two-node network `1 — 2` where every one-node target set covers the
whole network with median rank `1`), `std(simulated) = 0` and the code
divides by zero: `numpy` yields `nan = 0.0/0.0` for the z-score and
`norm.cdf(nan) = nan` for the p-value (modelled `(none, none)`), no
dedicated error is raised. -/
theorem coverage_zero_std_returns_nan :
    get_drug_input_coverage [0] [(0, 1)] ⟨[(1, 2)]⟩ (fun _ => 1)
      (List.replicate 100 [1]) = (none, none) := by
  have hscore : compute_cov_score [1] ⟨[(1, 2)]⟩ (fun _ => 1) = some 1 := by
    norm_num [compute_cov_score, pandasMedian, firstDedup, PPIGraph.closedNeighborhood,
      PPIGraph.neighbors, PPIGraph.nodes, sortRats, insertSorted]
  have htargets :
      ((⟨[(1, 2)]⟩ : PPIGraph).nodes.filter fun n =>
        (([((0 : ℕ), (1 : ℕ))].filter fun p => [0].contains p.1).any fun p =>
          p.2 = n)) = [1] := rfl
  simp only [get_drug_input_coverage, htargets, List.map_replicate, hscore]
  simp only [zAndP, allFinite_replicate, npVar_replicate 100 1 (by norm_num),
    npMean_replicate 100 1 (by norm_num)]
  simp

/-! ### Properties of the standard normal CDF used by the scorer -/

theorem gaussianPDFReal_std_neg (x : ℝ) :
    ProbabilityTheory.gaussianPDFReal 0 1 (-x) =
      ProbabilityTheory.gaussianPDFReal 0 1 x := by
  simp only [ProbabilityTheory.gaussianPDFReal]
  norm_num

theorem integrableOn_gaussianPDFReal (s : Set ℝ) :
    MeasureTheory.IntegrableOn (ProbabilityTheory.gaussianPDFReal 0 1) s :=
  (ProbabilityTheory.integrable_gaussianPDFReal 0 1).integrableOn

theorem normCdf_nonneg (x : ℝ) : 0 ≤ normCdf x :=
  MeasureTheory.setIntegral_nonneg measurableSet_Iic fun t _ =>
    ProbabilityTheory.gaussianPDFReal_nonneg 0 1 t

theorem normCdf_mono {x y : ℝ} (h : x ≤ y) : normCdf x ≤ normCdf y := by
  refine MeasureTheory.setIntegral_mono_set (integrableOn_gaussianPDFReal _)
    (Filter.Eventually.of_forall fun t => ProbabilityTheory.gaussianPDFReal_nonneg 0 1 t)
    (Filter.Eventually.of_forall ?_)
  exact Set.Iic_subset_Iic.mpr h

theorem normCdf_zero : normCdf 0 = 1 / 2 := by
  have hsym : normCdf 0 = ∫ t in Set.Ioi (0 : ℝ), ProbabilityTheory.gaussianPDFReal 0 1 t := by
    have := integral_comp_neg_Iic (0 : ℝ) (ProbabilityTheory.gaussianPDFReal 0 1)
    rw [neg_zero] at this
    rw [normCdf, ← this]
    refine MeasureTheory.setIntegral_congr_fun measurableSet_Iic fun t _ => ?_
    exact (gaussianPDFReal_std_neg t).symm
  have hsplit :
      normCdf 0 + ∫ t in Set.Ioi (0 : ℝ), ProbabilityTheory.gaussianPDFReal 0 1 t = 1 := by
    rw [normCdf]
    rw [intervalIntegral.integral_Iic_add_Ioi (integrableOn_gaussianPDFReal _)
      (integrableOn_gaussianPDFReal _)]
    exact ProbabilityTheory.integral_gaussianPDFReal_eq_one 0 one_ne_zero
  rw [← hsym] at hsplit
  linarith

theorem normCdf_le_half_of_nonpos {x : ℝ} (h : x ≤ 0) : normCdf x ≤ 1 / 2 :=
  normCdf_zero ▸ normCdf_mono h

/-- C10: whenever the standardization step of the Network Coverage Scorer
returns a finite pair `(z, p)`, the p-value is exactly the standard
normal CDF at `-|z|`, hence lies in `[0, 1/2]` and in particular is
strictly below the degenerate-fitness sentinel `1`. -/
theorem coverage_pvalue_bounds (observed : Option ℚ) (simulated : List (Option ℚ))
    (z p : ℝ) (h : zAndP observed simulated = (some z, some p)) :
    p = normCdf (-|z|) ∧ 0 ≤ p ∧ p ≤ 1 / 2 ∧ p < 1 := by
  have hp : p = normCdf (-|z|) := by
    cases observed with
    | none => simp [zAndP] at h
    | some o =>
        simp only [zAndP] at h
        cases hsims : allFinite simulated with
        | none => rw [hsims] at h; simp at h
        | some sims =>
            rw [hsims] at h
            dsimp only at h
            by_cases hvar : npVar sims = 0
            · rw [if_pos hvar] at h
              by_cases hmean : o = npMean sims
              · rw [if_pos hmean] at h; simp at h
              · rw [if_neg hmean] at h; simp at h
            · rw [if_neg hvar] at h
              simp only [Prod.mk.injEq, Option.some.injEq] at h
              rw [← h.1, ← h.2]
  refine ⟨hp, ?_, ?_, ?_⟩
  · rw [hp]; exact normCdf_nonneg _
  · rw [hp]; exact normCdf_le_half_of_nonpos (neg_nonpos.mpr (abs_nonneg z))
  · rw [hp]
    calc normCdf (-|z|) ≤ 1 / 2 := normCdf_le_half_of_nonpos (neg_nonpos.mpr (abs_nonneg z))
    _ < 1 := by norm_num

/-- Witness for C10 at a concrete scorer input with nonzero simulated
variance: observed score `3`, simulated scores `[1, -1]`. -/
theorem coverage_pvalue_bounds_witness :
    0 ≤ normCdf (-|(3 : ℝ)|) ∧ normCdf (-|(3 : ℝ)|) ≤ 1 / 2 ∧ normCdf (-|(3 : ℝ)|) < 1 := by
  have h : zAndP (some 3) [some 1, some (-1)] =
      (some ((3 : ℝ)), some (normCdf (-|(3 : ℝ)|))) := by
    have hfin : allFinite [some (1 : ℚ), some (-1)] = some [1, -1] := rfl
    have hmean : npMean [(1 : ℚ), -1] = 0 := by
      simp [npMean]
    have hvar : npVar [(1 : ℚ), -1] = 1 := by
      norm_num [npVar, hmean]
    simp only [zAndP, hfin, hvar, hmean]
    norm_num
  have hb := coverage_pvalue_bounds (some 3) [some 1, some (-1)] 3 (normCdf (-|(3 : ℝ)|)) h
  exact ⟨hb.2.1, hb.2.2.1, hb.2.2.2⟩

/-! ## `dream/genetic_algorithm/fitness.py`

`EvaluationFunction.__init__` symmetrizes the three triple-list distance
records into drug-by-drug matrices indexed by the sorted drug names and
keeps the drug-target table, network and rank table; `__call__` maps a
boolean individual to the 5-tuple fitness.  We model the constructed
state directly: the three matrices as functions on drug names, the rest
as in the coverage section. -/

/-- The state an `EvaluationFunction` holds after `__init__`. -/
structure EvaluationFunction where
  drug_names : List ℕ
  smiles_distances : ℕ → ℕ → ℚ
  moa_distances : ℕ → ℕ → ℚ
  paths_distances : ℕ → ℕ → ℚ
  L1000_drug_targets : List (ℕ × ℕ)
  ppi_network : PPIGraph
  graph_rank : ℕ → ℚ

/-- `np.sum(individual)` for a boolean vector: the number of set bits. -/
def popcount (individual : List Bool) : ℕ := individual.countP id

/-- `[self.drug_names[i] for i, bit in enumerate(individual) if bit == 1]`. -/
def selectedDrugs (drug_names : List ℕ) (individual : List Bool) : List ℕ :=
  (List.range individual.length).filterMap fun i =>
    if individual.getD i false then some (drug_names.getD i 0) else none

/-- `np.triu_indices(n, k=1)` as the row-major list of index pairs of the
strict upper triangle. -/
def triuIndices (n : ℕ) : List (ℕ × ℕ) :=
  (List.range n).flatMap fun i =>
    ((List.range n).filter fun j => i < j).map fun j => (i, j)

/-- The 5-tuple fitness: mean SMILES distance, mean MOA distance, mean
path distance, coverage p-value (a float that may be non-finite), number
of selected drugs. -/
def Fitness : Type := ℚ × ℚ × ℚ × Option ℝ × ℕ

/-- `EvaluationFunction.__call__` (fitness.py lines 102-140).  An
individual with at most one set bit gets the fixed degenerate fitness
`(0, 0, 0, 1, D)`; otherwise the three matrices are restricted to the
selected drugs, averaged over the strict upper triangle of the
submatrix, and combined with the coverage p-value of the selected drugs
and the selected count. -/
noncomputable def EvaluationFunction.call (E : EvaluationFunction)
    (individual : List Bool) (draws : List (List ℕ)) : Fitness :=
  if popcount individual ≤ 1 then
    (0, 0, 0, some 1, E.drug_names.length)
  else
    let candidate_drugs := selectedDrugs E.drug_names individual
    let n_drugs := popcount individual
    let linear_index := triuIndices n_drugs
    let cov := coverage_sum candidate_drugs E.L1000_drug_targets E.ppi_network
      E.graph_rank draws
    (npMean (linear_index.map fun p =>
        E.smiles_distances (candidate_drugs.getD p.1 0) (candidate_drugs.getD p.2 0)),
     npMean (linear_index.map fun p =>
        E.moa_distances (candidate_drugs.getD p.1 0) (candidate_drugs.getD p.2 0)),
     npMean (linear_index.map fun p =>
        E.paths_distances (candidate_drugs.getD p.1 0) (candidate_drugs.getD p.2 0)),
     cov.2,
     n_drugs)

/-- A small concrete evaluator state over three drugs, used by witnesses. -/
def evalExample : EvaluationFunction where
  drug_names := [0, 1, 2]
  smiles_distances := fun i j => if i = j then 0 else 1
  moa_distances := fun i j => if i = j then 0 else 2
  paths_distances := fun i j => if i = j then 0 else 3
  L1000_drug_targets := [(0, 1)]
  ppi_network := ⟨[(1, 2)]⟩
  graph_rank := fun _ => 1

/-- C1: an individual of the right length with at most one set bit is
mapped to the degenerate fitness `(0, 0, 0, 1, D)` with `D` the total
drug count; no part of the scoring pipeline (and so no error path) is
touched. -/
theorem eval_degenerate (E : EvaluationFunction) (individual : List Bool)
    (draws : List (List ℕ)) (hlen : individual.length = E.drug_names.length)
    (h : popcount individual ≤ 1) :
    E.call individual draws = (0, 0, 0, some 1, E.drug_names.length) := by
  unfold EvaluationFunction.call
  rw [if_pos h]

/-- Witness for C1: the all-zeros and one-hot individuals over the
three-drug example evaluator. -/
theorem eval_degenerate_witness :
    ([false, true, false] : List Bool).length = evalExample.drug_names.length ∧
      popcount [false, true, false] ≤ 1 ∧
      evalExample.call [false, true, false] [] =
        (0, 0, 0, some 1, evalExample.drug_names.length) :=
  ⟨by decide, by decide,
    eval_degenerate evalExample [false, true, false] [] (by decide) (by decide)⟩

/-- Counterexample to C2 as stated: the all-zeros individual over three
drugs has zero set bits, yet the fifth fitness component is the total
drug count `3`. -/
theorem eval_n_drugs_counterexample :
    (evalExample.call [false, false, false] []).2.2.2.2 ≠
      popcount [false, false, false] := by
  have h := eval_degenerate evalExample [false, false, false] [] (by decide) (by decide)
  rw [h]
  decide

/-- C2 (amended): for an individual with at least two set bits the fifth
fitness component equals the number of set bits (for at most one set bit
it is the total drug count, per C1). -/
theorem eval_n_drugs (E : EvaluationFunction) (individual : List Bool)
    (draws : List (List ℕ)) (h : 2 ≤ popcount individual) :
    (E.call individual draws).2.2.2.2 = popcount individual := by
  unfold EvaluationFunction.call
  rw [if_neg (by omega)]

/-- Witness for the amended C2 at a two-bit individual. -/
theorem eval_n_drugs_witness :
    2 ≤ popcount [true, true, false] ∧
      (evalExample.call [true, true, false] []).2.2.2.2 =
        popcount [true, true, false] :=
  ⟨by decide, eval_n_drugs evalExample [true, true, false] [] (by decide)⟩

/-! ### The strict-upper-triangle means (C3) -/

theorem sum_map_list_range {M : Type} [AddCommMonoid M] (f : ℕ → M) (n : ℕ) :
    ((List.range n).map f).sum = ∑ i ∈ Finset.range n, f i := by
  induction n with
  | zero => simp
  | succ k ih =>
      rw [List.range_succ, List.map_append, List.sum_append, Finset.sum_range_succ, ih]
      simp

theorem sum_map_filter_list {M : Type} [AddCommMonoid M] (p : ℕ → Bool) (f : ℕ → M) :
    ∀ l : List ℕ,
      ((l.filter p).map f).sum = (l.map fun i => if p i then f i else 0).sum := by
  intro l
  induction l with
  | nil => rfl
  | cons a t ih =>
      cases hp : p a <;> simp [List.filter_cons, hp, ih]

theorem sum_map_flatMap {M : Type} [AddCommMonoid M] (g : ℕ × ℕ → M)
    (h : ℕ → List (ℕ × ℕ)) :
    ∀ l : List ℕ, ((l.flatMap h).map g).sum = (l.map fun i => ((h i).map g).sum).sum := by
  intro l
  induction l with
  | nil => rfl
  | cons a t ih => simp [List.flatMap_cons, ih]

/-- The strict upper triangle of an `n × n` index square, as a finite
set of index pairs. -/
def pairsFin (n : ℕ) : Finset (ℕ × ℕ) :=
  (Finset.range n ×ˢ Finset.range n).filter fun q => q.1 < q.2

theorem sum_triuIndices {M : Type} [AddCommMonoid M] (g : ℕ × ℕ → M) (n : ℕ) :
    ((triuIndices n).map g).sum = ∑ q ∈ pairsFin n, g q := by
  have hlist : ((triuIndices n).map g).sum =
      ∑ i ∈ Finset.range n, ∑ j ∈ Finset.range n, if i < j then g (i, j) else 0 := by
    rw [triuIndices, sum_map_flatMap, sum_map_list_range]
    refine Finset.sum_congr rfl fun i _ => ?_
    rw [List.map_map]
    have : ((List.range n).filter fun j => decide (i < j)).map ((fun q => g q) ∘ fun j => (i, j)) =
        ((List.range n).filter fun j => decide (i < j)).map fun j => g (i, j) := rfl
    rw [this, sum_map_filter_list (fun j => decide (i < j)) (fun j => g (i, j)),
      sum_map_list_range]
    refine Finset.sum_congr rfl fun j _ => ?_
    by_cases hij : i < j <;> simp [hij]
  rw [hlist, pairsFin, Finset.sum_filter, Finset.sum_product]

theorem sum_map_one {α : Type} : ∀ l : List α, (l.map fun _ => (1 : ℕ)).sum = l.length := by
  intro l
  induction l with
  | nil => rfl
  | cons a t ih => simp [ih]; omega

theorem length_triuIndices (n : ℕ) : (triuIndices n).length = (pairsFin n).card := by
  rw [← sum_map_one (triuIndices n), sum_triuIndices (fun _ => (1 : ℕ)) n,
    Finset.card_eq_sum_ones]

/-- The mean of `dist` over all unordered pairs of selected drugs
(positions `q.1 < q.2` into the selected-drug list), self-pairs
excluded: the specification's reading of the strict-upper-triangle
submatrix mean. -/
def pairMean (dist : ℕ → ℕ → ℚ) (sel : List ℕ) : ℚ :=
  (∑ q ∈ pairsFin sel.length, dist (sel.getD q.1 0) (sel.getD q.2 0)) /
    ((pairsFin sel.length).card : ℚ)

theorem npMean_triuIndices (f : ℕ × ℕ → ℚ) (n : ℕ) :
    npMean ((triuIndices n).map f) = (∑ q ∈ pairsFin n, f q) / ((pairsFin n).card : ℚ) := by
  rw [npMean, sum_triuIndices, List.length_map, length_triuIndices]

theorem getD_succ_tail (names : List ℕ) (i : ℕ) :
    names.getD (i + 1) 0 = names.tail.getD i 0 := by
  cases names <;> simp [List.getD]

theorem selectedDrugs_length :
    ∀ (individual : List Bool) (names : List ℕ),
      (selectedDrugs names individual).length = popcount individual := by
  intro individual
  induction individual with
  | nil => intro names; rfl
  | cons b t ih =>
      intro names
      have hrange : List.range (t.length + 1) = 0 :: (List.range t.length).map Nat.succ :=
        List.range_succ_eq_map t.length
      have htail :
          ((List.range t.length).map Nat.succ).filterMap (fun i =>
            if (b :: t).getD i false then some (names.getD i 0) else none) =
          (List.range t.length).filterMap fun i =>
            if t.getD i false then some (names.tail.getD i 0) else none := by
        rw [List.filterMap_map]
        refine List.filterMap_congr fun i _ => ?_
        simp [Function.comp, List.getD_cons_succ, getD_succ_tail]
      have hihs := ih names.tail
      rw [selectedDrugs] at hihs
      cases b with
      | false =>
          simp only [selectedDrugs, List.length_cons, hrange, List.filterMap_cons,
            List.getD_cons_zero, if_neg (by simp : ¬ (false = true)), htail, popcount,
            List.countP_cons]
          rw [popcount] at hihs
          simpa [popcount] using hihs
      | true =>
          simp only [selectedDrugs, List.length_cons, hrange, List.filterMap_cons,
            List.getD_cons_zero, if_pos rfl, htail, List.length_cons, popcount,
            List.countP_cons]
          rw [popcount] at hihs
          simp [popcount] at hihs ⊢
          omega

/-- C3: for an individual of the right length with at least two set bits,
the fitness is the triple of strict-upper-triangle submatrix means over
the selected drugs (mean over all unordered pairs, self-pairs excluded),
the coverage p-value of the selected drugs returned by the Network
Coverage Scorer, and the selected-drug count. -/
theorem eval_nondegenerate (E : EvaluationFunction) (individual : List Bool)
    (draws : List (List ℕ)) (hlen : individual.length = E.drug_names.length)
    (h : 2 ≤ popcount individual) :
    E.call individual draws =
      (pairMean E.smiles_distances (selectedDrugs E.drug_names individual),
       pairMean E.moa_distances (selectedDrugs E.drug_names individual),
       pairMean E.paths_distances (selectedDrugs E.drug_names individual),
       (coverage_sum (selectedDrugs E.drug_names individual) E.L1000_drug_targets
          E.ppi_network E.graph_rank draws).2,
       popcount individual) := by
  unfold EvaluationFunction.call
  rw [if_neg (by omega)]
  have hsel : (selectedDrugs E.drug_names individual).length = popcount individual :=
    selectedDrugs_length individual E.drug_names
  refine Prod.ext ?_ (Prod.ext ?_ (Prod.ext ?_ rfl))
  · show npMean _ = pairMean E.smiles_distances _
    rw [npMean_triuIndices (fun q =>
        E.smiles_distances ((selectedDrugs E.drug_names individual).getD q.1 0)
          ((selectedDrugs E.drug_names individual).getD q.2 0)) (popcount individual),
      pairMean, hsel]
  · show npMean _ = pairMean E.moa_distances _
    rw [npMean_triuIndices (fun q =>
        E.moa_distances ((selectedDrugs E.drug_names individual).getD q.1 0)
          ((selectedDrugs E.drug_names individual).getD q.2 0)) (popcount individual),
      pairMean, hsel]
  · show npMean _ = pairMean E.paths_distances _
    rw [npMean_triuIndices (fun q =>
        E.paths_distances ((selectedDrugs E.drug_names individual).getD q.1 0)
          ((selectedDrugs E.drug_names individual).getD q.2 0)) (popcount individual),
      pairMean, hsel]

/-- Witness for C3 at the two-bit individual `[true, true, false]` over
the three-drug example evaluator. -/
theorem eval_nondegenerate_witness :
    ([true, true, false] : List Bool).length = evalExample.drug_names.length ∧
      2 ≤ popcount [true, true, false] ∧
      evalExample.call [true, true, false] [] =
        (pairMean evalExample.smiles_distances (selectedDrugs evalExample.drug_names [true, true, false]),
         pairMean evalExample.moa_distances (selectedDrugs evalExample.drug_names [true, true, false]),
         pairMean evalExample.paths_distances (selectedDrugs evalExample.drug_names [true, true, false]),
         (coverage_sum (selectedDrugs evalExample.drug_names [true, true, false])
            evalExample.L1000_drug_targets evalExample.ppi_network evalExample.graph_rank []).2,
         popcount [true, true, false]) :=
  ⟨by decide, by decide,
    eval_nondegenerate evalExample [true, true, false] [] (by decide) (by decide)⟩

/-! ## `dream/genetic_algorithm/ga.py`: the generational loop's logbook (C6)

`run_genetic_algorithm` (ga.py lines 196-287) computes
`invalid_ind = [ind for ind in population if not ind.fitness.valid]` once,
before the generational loop, evaluates those individuals and records
`nevals=len(invalid_ind)` for generation 0.  Inside the loop each
generation produces `noffspring` offspring with `varOr`, evaluates all of
them (line 270 maps the evaluator over the whole offspring list), but
records `nevals=len(invalid_ind)` again — the list from before the loop,
never recomputed. -/

/-- One row of the logbook: generation index and the recorded `nevals`. -/
structure LogRecord where
  gen : ℕ
  nevals : ℕ
deriving DecidableEq, Repr

/-- The `gen`/`nevals` columns of the logbook produced by
`run_genetic_algorithm`, paired with the list of how many individuals
were actually newly evaluated at each generation (`len(invalid_ind)`
initially, then the `noffspring` offspring evaluated at line 270).
`nInvalidInit` is the number of individuals of the initial population
with unset fitness. -/
def gaRun (nInvalidInit ngen noffspring : ℕ) : List LogRecord × List ℕ :=
  (⟨0, nInvalidInit⟩ :: (List.range ngen).map fun g => ⟨g + 1, nInvalidInit⟩,
   nInvalidInit :: (List.range ngen).map fun _ => noffspring)

/-- C6 fails on the code: with 2 initially unevaluated individuals,
1 offspring per generation and 1 generation, the record logged for
generation 1 reports `nevals = 2` — the stale pre-loop count — while the
number of individuals newly evaluated in generation 1 is `1`. -/
theorem ga_logbook_stale_nevals :
    ((gaRun 2 1 1).1.getD 1 ⟨0, 0⟩).nevals = 2 ∧
      (gaRun 2 1 1).2.getD 1 0 = 1 ∧
      ((gaRun 2 1 1).1.getD 1 ⟨0, 0⟩).nevals ≠ (gaRun 2 1 1).2.getD 1 0 := by
  decide

/-! ## The non-dominated archive (C7)

Modelled from the spec: the archive (`deap.tools.ParetoFront`, registered
at ga.py line 193 and updated with each generation's offspring at line
279, implemented outside this repository) keeps mutually non-dominated
fitness values; on update an incoming individual dominated by an existing
member is discarded, otherwise it is inserted and every existing member
it dominates is removed. -/

/-- A fitness value as archived: the five objectives with optimization
weights `(1, 1, 1, -1, -1)` (maximize the three distances, minimize
coverage p-value and drug count). -/
structure Fit5 where
  smiles : ℚ
  moa : ℚ
  paths : ℚ
  coverage : ℚ
  n_drugs : ℚ
deriving DecidableEq, Repr

/-- Pareto domination under the weights `(1, 1, 1, -1, -1)`: `a`
dominates `b` iff `a` is at least as good on every objective and
strictly better on at least one. -/
def Dominates (a b : Fit5) : Prop :=
  (b.smiles ≤ a.smiles ∧ b.moa ≤ a.moa ∧ b.paths ≤ a.paths ∧
    a.coverage ≤ b.coverage ∧ a.n_drugs ≤ b.n_drugs) ∧
  (b.smiles < a.smiles ∨ b.moa < a.moa ∨ b.paths < a.paths ∨
    a.coverage < b.coverage ∨ a.n_drugs < b.n_drugs)

instance (a b : Fit5) : Decidable (Dominates a b) := by
  unfold Dominates
  infer_instance

theorem dominates_irrefl (a : Fit5) : ¬ Dominates a a := by
  rintro ⟨-, h | h | h | h | h⟩ <;> exact lt_irrefl _ h

/-- Modelled from the spec: insertion of one incoming individual into the
archive.  If some member dominates it, it is discarded; otherwise it is
inserted and the members it dominates are removed. -/
def hofInsert (archive : List Fit5) (x : Fit5) : List Fit5 :=
  if archive.any fun h => decide (Dominates h x) then archive
  else x :: archive.filter fun h => ! decide (Dominates x h)

/-- Modelled from the spec: an archive update submits each individual of
the batch in turn. -/
def hofUpdate (archive : List Fit5) (batch : List Fit5) : List Fit5 :=
  batch.foldl hofInsert archive

/-- The archive invariant: no member dominates another. -/
def MutuallyNonDominated (archive : List Fit5) : Prop :=
  ∀ a ∈ archive, ∀ b ∈ archive, ¬ Dominates a b

instance (archive : List Fit5) : Decidable (MutuallyNonDominated archive) := by
  unfold MutuallyNonDominated
  infer_instance

theorem hofInsert_preserves (archive : List Fit5)
    (h : MutuallyNonDominated archive) (x : Fit5) :
    MutuallyNonDominated (hofInsert archive x) := by
  unfold hofInsert
  by_cases hdom : archive.any fun h => decide (Dominates h x)
  · rw [if_pos hdom]; exact h
  · rw [if_neg hdom]
    have hnodom : ∀ a ∈ archive, ¬ Dominates a x := by
      intro a ha hda
      exact hdom (List.any_eq_true.mpr ⟨a, ha, decide_eq_true hda⟩)
    intro a ha b hb
    rcases List.mem_cons.mp ha with ha0 | ha'
    · rcases List.mem_cons.mp hb with hb0 | hb'
      · rw [ha0, hb0]; exact dominates_irrefl x
      · rw [ha0]
        have hfb := (List.mem_filter.mp hb').2
        rw [Bool.not_eq_true', decide_eq_false_iff_not] at hfb
        exact hfb
    · have ha'' := (List.mem_filter.mp ha').1
      rcases List.mem_cons.mp hb with hb0 | hb'
      · rw [hb0]; exact hnodom a ha''
      · exact h a ha'' b (List.mem_filter.mp hb').1

/-- C7: starting from an archive satisfying the invariant, (i) every
batched update preserves the invariant — the archive never holds two
individuals one of which Pareto-dominates the other; (ii) an incoming
individual dominated by an existing member is discarded, leaving the
archive unchanged; (iii) when an individual is inserted, every existing
member it dominates is removed. -/
theorem hall_of_fame_invariant (archive : List Fit5)
    (h : MutuallyNonDominated archive) :
    (∀ batch, MutuallyNonDominated (hofUpdate archive batch)) ∧
    (∀ x, (∃ m ∈ archive, Dominates m x) → hofInsert archive x = archive) ∧
    (∀ x, (∀ m ∈ archive, ¬ Dominates m x) →
      ∀ m ∈ archive, Dominates x m → m ∉ hofInsert archive x) := by
  refine ⟨?_, ?_, ?_⟩
  · intro batch
    induction batch generalizing archive with
    | nil => exact h
    | cons y ys ih => exact ih (hofInsert archive y) (hofInsert_preserves archive h y)
  · intro x ⟨m, hm, hdm⟩
    unfold hofInsert
    rw [if_pos (List.any_eq_true.mpr ⟨m, hm, decide_eq_true hdm⟩)]
  · intro x hnone m hm hxm
    unfold hofInsert
    rw [if_neg ?hneg]
    case hneg =>
      intro hany
      obtain ⟨a, ha, hda⟩ := List.any_eq_true.mp hany
      exact hnone a ha (of_decide_eq_true hda)
    intro hmem
    rcases List.mem_cons.mp hmem with hm0 | hmem'
    · rw [hm0] at hxm
      exact dominates_irrefl x hxm
    · have hfm := (List.mem_filter.mp hmem').2
      rw [Bool.not_eq_true', decide_eq_false_iff_not] at hfm
      exact hfm hxm

/-- Witness for C7: a concrete one-member archive and a batch whose
member dominates it. -/
theorem hall_of_fame_invariant_witness :
    MutuallyNonDominated [⟨1, 0, 0, 0, 2⟩] ∧
      MutuallyNonDominated (hofUpdate [⟨1, 0, 0, 0, 2⟩] [⟨2, 0, 0, 0, 1⟩]) :=
  ⟨by decide, (hall_of_fame_invariant [⟨1, 0, 0, 0, 2⟩] (by decide)).1 [⟨2, 0, 0, 0, 1⟩]⟩

/-! ## The shuffle mutation (C9)

Modelled from the spec: the registered mutation operator
(`deap.tools.mutShuffleIndexes`, registered at ga.py lines 180-182,
implemented outside this repository) walks the positions of the
individual and, for the randomly chosen ones, swaps the value with the
value at another randomly chosen in-range position.  The random draws
are injected as the explicit list of position pairs `swaps`. -/

/-- Swap the values at two in-range positions. -/
def swapPositions (l : List Bool) (i j : ℕ) : List Bool :=
  if i < l.length ∧ j < l.length then
    (l.set i (l.getD j false)).set j (l.getD i false)
  else l

/-- The shuffle mutation as the sequence of value swaps it performs. -/
def mutShuffleIndexes (individual : List Bool) (swaps : List (ℕ × ℕ)) : List Bool :=
  swaps.foldl (fun l p => swapPositions l p.1 p.2) individual

theorem popcount_swapPositions (l : List Bool) (i j : ℕ) :
    popcount (swapPositions l i j) = popcount l := by
  unfold swapPositions
  by_cases hij : i < l.length ∧ j < l.length
  · rw [if_pos hij]
    obtain ⟨hi, hj⟩ := hij
    have hgi : l.getD i false = l[i] := by
      rw [List.getD_eq_getElem?_getD, List.getElem?_eq_getElem hi]; rfl
    have hgj : l.getD j false = l[j] := by
      rw [List.getD_eq_getElem?_getD, List.getElem?_eq_getElem hj]; rfl
    have hj' : j < (l.set i (l.getD j false)).length := by
      rw [List.length_set]; exact hj
    have hstep1 : (l.set i (l.getD j false)).countP id =
        l.countP id - (if l[i] then 1 else 0) + (if l.getD j false then 1 else 0) := by
      have := List.countP_set id l i (l.getD j false) hi
      simpa using this
    have hmid : (l.set i (l.getD j false))[j] = l.getD j false := by
      by_cases heq : i = j
      · subst heq; exact List.getElem_set_self (h := by rw [List.length_set]; exact hi)
      · rw [List.getElem_set_ne heq]
        exact hgj.symm
    have hstep2 : ((l.set i (l.getD j false)).set j (l.getD i false)).countP id =
        (l.set i (l.getD j false)).countP id -
          (if (l.set i (l.getD j false))[j] then 1 else 0) +
          (if l.getD i false then 1 else 0) := by
      have := List.countP_set id (l.set i (l.getD j false)) j (l.getD i false) hj'
      simpa using this
    have hb1 : (if l[i] then 1 else 0) ≤ l.countP id := by
      have := List.boole_getElem_le_countP id l i hi
      simpa using this
    rw [hmid] at hstep2
    rw [hgj] at hstep1 hstep2
    rw [hgi] at hstep2
    rw [popcount, popcount, hgj, hgi, hstep2, hstep1]
    rcases Bool.dichotomy l[i] with hbi | hbi <;>
      rcases Bool.dichotomy l[j] with hbj | hbj <;>
        simp only [hbi, hbj, if_true, if_false] at hb1 ⊢ <;> omega
  · rw [if_neg hij]

/-- C9: the registered mutation operator only permutes the bit vector:
for every individual and every sequence of random swap draws, the number
of set bits — the selected-drug count — is unchanged. -/
theorem mutation_preserves_popcount (individual : List Bool)
    (swaps : List (ℕ × ℕ)) :
    popcount (mutShuffleIndexes individual swaps) = popcount individual := by
  unfold mutShuffleIndexes
  induction swaps generalizing individual with
  | nil => rfl
  | cons p ps ih =>
      rw [List.foldl_cons, ih, popcount_swapPositions]

end Dream
